import Mathlib

/-!
# Verification of the FShare backend

A shallow embedding of the FShare backend (`src/backend`) together with
theorems settling the stated properties of the natural-language specification.

Conventions of the embedding:
* bytes are natural numbers, byte strings are `List Nat`;
* the AES block cipher is a collaborator provided by the `cryptography`
  library, not by this repository; it is modelled as an abstract pair of
  per-block functions, and theorems assume exactly the properties of a block
  cipher they need (inverse on blocks, 16-byte blocks map to 16-byte blocks);
* randomness (the fresh IV of `encrypt_data`) is an explicit parameter;
* socket reads, wall-clock time and the filesystem are explicit parameters
  (a list of received frames, a `Nat` timestamp, a list of existing paths).
-/

namespace FShare

/-- A byte string; bytes are natural numbers (< 256 on real inputs). -/
abbrev Bytes := List Nat

/-- Abstract block cipher over 16-byte blocks.  In `encryption.py` this is
AES from the `cryptography` library (`algorithms.AES`); the repository only
composes it in CBC mode, so we keep the per-block maps abstract. -/
structure BlockCipher where
  enc : Bytes → Bytes → Bytes
  dec : Bytes → Bytes → Bytes

/-- The identity cipher, used to instantiate block-cipher hypotheses on
concrete inputs. -/
def idCipher : BlockCipher := { enc := fun _ b => b, dec := fun _ b => b }

/-- Failure cases of the decryption path of `encryption.py`.  The spec's
error taxonomy calls all of them `CryptoError` (bad padding, truncated
ciphertext, key-size mismatch). -/
inductive CryptoError where
  | invalidKeySize
  | invalidIV
  | notBlockAligned
  | badPadding
  deriving DecidableEq, Repr

/-- PKCS7 padding to the 16-byte AES block (`padding.PKCS7(128).padder()` in
`encrypt_data`): appends `p = 16 - len % 16` copies of the byte `p`
(a full extra block when the length is already a multiple of 16). -/
def pkcs7Pad (data : Bytes) : Bytes :=
  data ++ List.replicate (16 - data.length % 16) (16 - data.length % 16)

/-- PKCS7 unpadding (`padding.PKCS7(128).unpadder()` in `decrypt_data`):
requires a nonempty input of block-aligned length whose last byte `p`
satisfies `1 ≤ p ≤ 16` and whose last `p` bytes all equal `p`; strips them. -/
def pkcs7Unpad (data : Bytes) : Except CryptoError Bytes :=
  if data.length = 0 ∨ data.length % 16 ≠ 0 then .error .badPadding
  else
    let p := data.getLastD 0
    if p = 0 ∨ 16 < p then .error .badPadding
    else if data.drop (data.length - p) ≠ List.replicate p p then .error .badPadding
    else .ok (data.take (data.length - p))

/-- Split a byte string into 16-byte blocks (the block traversal the CBC
cipher context performs); a trailing fragment shorter than 16 bytes becomes
a short final block. -/
def chunks16 : Bytes → List Bytes
  | [] => []
  | b :: rest => ((b :: rest).take 16) :: chunks16 ((b :: rest).drop 16)
  termination_by l => l.length
  decreasing_by simp [List.length_drop]; omega

/-- Bytewise xor of two blocks (the CBC chaining step). -/
def xorBlock (a b : Bytes) : Bytes := List.zipWith Nat.xor a b

/-- CBC encryption of a block list: `cᵢ = E(key, pᵢ xor cᵢ₋₁)` with `c₀`
seeded by the IV (`modes.CBC(iv)` composed with the block cipher). -/
def cbcEncBlocks (C : BlockCipher) (key : Bytes) : Bytes → List Bytes → List Bytes
  | _, [] => []
  | prev, p :: ps =>
    C.enc key (xorBlock p prev) :: cbcEncBlocks C key (C.enc key (xorBlock p prev)) ps

/-- CBC decryption of a block list: `pᵢ = D(key, cᵢ) xor cᵢ₋₁`. -/
def cbcDecBlocks (C : BlockCipher) (key : Bytes) : Bytes → List Bytes → List Bytes
  | _, [] => []
  | prev, c :: cs => xorBlock (C.dec key c) prev :: cbcDecBlocks C key c cs

/-- `FileEncryption.encrypt_data` (`encryption.py` lines 91-126): AES-CBC
encryption of PKCS7-padded data, with the freshly generated 16-byte IV
prepended to the ciphertext.  The internally generated random IV is the
explicit `iv` argument here; `algorithms.AES(key)` rejects keys that are not
16, 24 or 32 bytes, and `modes.CBC(iv)` rejects IVs that are not 16 bytes. -/
def encrypt_data (C : BlockCipher) (iv data key : Bytes) : Except CryptoError Bytes :=
  if ¬(key.length = 16 ∨ key.length = 24 ∨ key.length = 32) then .error .invalidKeySize
  else if iv.length ≠ 16 then .error .invalidIV
  else .ok (iv ++ (cbcEncBlocks C key iv (chunks16 (pkcs7Pad data))).flatten)

/-- `FileEncryption.decrypt_data` (`encryption.py` lines 128-163): splits the
16-byte IV off the front, CBC-decrypts the remainder and removes the PKCS7
padding.  Each failure raised by the `cryptography` library inside the
source's `try` block is re-raised; here it is an explicit error value. -/
def decrypt_data (C : BlockCipher) (encrypted_data key : Bytes) : Except CryptoError Bytes :=
  if ¬(key.length = 16 ∨ key.length = 24 ∨ key.length = 32) then .error .invalidKeySize
  else if (encrypted_data.take 16).length ≠ 16 then .error .invalidIV
  else if (encrypted_data.drop 16).length % 16 ≠ 0 then .error .notBlockAligned
  else pkcs7Unpad (cbcDecBlocks C key (encrypted_data.take 16) (chunks16 (encrypted_data.drop 16))).flatten

/-! ## Configuration (`config.py`) -/

/-- The configuration fields the claims depend on (`Config.__init__` in
`config.py`).  `MAX_FILE_SIZE` is an `Int` because the received
`file_size` is an arbitrary JSON number that may be negative. -/
structure Config where
  APP_NAME : String
  MAX_FILE_SIZE : Int
  RECEIVER_PORT : Nat
  CHUNK_SIZE : Nat
  DEVICE_TIMEOUT : Nat
  deriving DecidableEq, Repr

/-- The default configuration values of `Config.__init__`. -/
def defaultConfig : Config :=
  { APP_NAME := "Fshare"
    MAX_FILE_SIZE := 10 * 1024 * 1024 * 1024
    RECEIVER_PORT := 8888
    CHUNK_SIZE := 8192
    DEVICE_TIMEOUT := 30 }

/-! ## Receiver (`receiver.py`) -/

/-- A received metadata object: the JSON dictionary parsed in
`_handle_client`.  Every field is optional because the sender controls the
JSON; `none` models an absent key. -/
structure Metadata where
  type? : Option String
  file_name? : Option String
  file_size? : Option Int
  file_hash? : Option String
  app? : Option String
  encrypted? : Option Bool
  encryption_key? : Option Bytes
  deriving DecidableEq, Repr

/-- `FileReceiver._validate_metadata` (`receiver.py` lines 373-411):
all five required fields present, `type == 'file_transfer'`,
`app == APP_NAME`, `0 < file_size <= MAX_FILE_SIZE`, file name nonempty and
at most 255 characters. -/
def validate_metadata (cfg : Config) (m : Metadata) : Bool :=
  match m.type?, m.file_name?, m.file_size?, m.file_hash?, m.app? with
  | some ty, some name, some size, some _, some app =>
    ty == "file_transfer" && app == cfg.APP_NAME &&
      decide (0 < size) && decide (size ≤ cfg.MAX_FILE_SIZE) &&
      !(name == "") && decide (name.length ≤ 255)
  | _, _, _, _, _ => false

/-- The ASCII status tokens of the transfer protocol. -/
inductive Token where
  | READY
  | INVALID_METADATA
  | COMPLETED
  | FAILED
  deriving DecidableEq, Repr

/-- Extraction of the declared file size used by `_receive_file`
(`metadata['file_size']`, guaranteed positive by validation). -/
def metaFileSize (m : Metadata) : Nat := (m.file_size?.getD 0).toNat

/-- Extraction of the declared content hash (`metadata['file_hash']`). -/
def metaFileHash (m : Metadata) : String := m.file_hash?.getD ""

/-- `is_encrypted = metadata.get('encrypted', False)` in `_receive_file`. -/
def metaIsEnc (m : Metadata) : Bool := m.encrypted?.getD false

/-- `encryption_key` in `_receive_file`: set only when `encrypted` is true
and a key is supplied in the metadata. -/
def metaKey? (m : Metadata) : Option Bytes :=
  if m.encrypted?.getD false then m.encryption_key? else none

/-- ASCII lower-casing of one character (`str.lower()` restricted to the
ASCII range, which is all that hexadecimal digests and protocol tokens
exercise). -/
def lowerChar (c : Char) : Char :=
  if 'A' ≤ c ∧ c ≤ 'Z' then Char.ofNat (c.toNat + 32) else c

/-- `str.lower()` on ASCII strings. -/
def strToLower (s : String) : String := String.mk (s.data.map lowerChar)

/-- Is the character ASCII whitespace (what `str.strip()` removes from the
tokens of this protocol)? -/
def isSpaceChar (c : Char) : Bool :=
  c == ' ' || c == '\t' || c == '\n' || c == '\r'

/-- `str.strip()` on ASCII strings: drop whitespace from both ends. -/
def stripStr (s : String) : String :=
  String.mk (((s.data.dropWhile isSpaceChar).reverse.dropWhile isSpaceChar).reverse)

/-- `verify_file_integrity` (`utils.py` lines 42-58) on the written
content: case-insensitive comparison of the hash of the content with the
expected hex digest.  The hash algorithm (`hashlib.sha256`) is a standard
library collaborator, passed in abstractly as `H`. -/
def verify_integrity (H : Bytes → String) (content : Bytes) (expected : String) : Bool :=
  strToLower (H content) == strToLower expected

/-- The chunk-reception loop of `FileReceiver._receive_file` (`receiver.py`
lines 435-484).  The wire input after `READY` is the list of framed records
in order, each given by its payload (the receiver reads a 4-byte length
prefix and then exactly that many bytes, so a record is determined by its
payload; the empty payload is the zero-length end marker).  Running out of
frames models the connection closing mid-stream (`recv` returning short
data, which raises and yields `False`).  Returns
(loop completed normally, bytes written to the destination file). -/
def receive_loop (C : BlockCipher) (fsize : Nat) (isEnc : Bool) (key? : Option Bytes) :
    List Bytes → Nat → Bytes → Bool × Bytes
  | frames, received, content =>
    if fsize ≤ received then (true, content)
    else
      match frames with
      | [] => (false, content)
      | f :: rest =>
        if f.length = 0 then (true, content)
        else
          match (if isEnc && key?.isSome then decrypt_data C f (key?.getD []) else .ok f) with
          | .error _ => (false, content)
          | .ok chunk =>
            receive_loop C fsize isEnc key? rest
              (received + (if isEnc then min chunk.length (fsize - received) else chunk.length))
              (content ++ chunk)

/-- `FileReceiver._receive_file` (`receiver.py` lines 413-496): run the
reception loop, then verify the written file's hash against the declared
hash; returns (success, content written to the destination file). -/
def receive_file (C : BlockCipher) (H : Bytes → String) (fsize : Nat) (fhash : String)
    (isEnc : Bool) (key? : Option Bytes) (frames : List Bytes) : Bool × Bytes :=
  match receive_loop C fsize isEnc key? frames 0 [] with
  | (false, content) => (false, content)
  | (true, content) => (verify_integrity H content fhash, content)

/-- Observable outcome of one receiver session (`_handle_client` after the
metadata JSON is parsed): the status tokens sent to the client in order,
the destination file left on disk at the end (`none` when no file was
created or the partial file was deleted), and whether the socket was closed
(the `finally` block always closes it). -/
structure SessionResult where
  sent : List Token
  file? : Option Bytes
  connection_closed : Bool
  deriving DecidableEq, Repr

/-- `FileReceiver._handle_client` (`receiver.py` lines 269-348) from the
point where the metadata dictionary is available: invalid metadata is
answered with `INVALID_METADATA` and nothing else (no destination file is
ever opened); valid metadata is answered with `READY`, the file is
received, and the session ends with `COMPLETED` (file kept) or `FAILED`
(partial file removed). -/
def handle_client (C : BlockCipher) (H : Bytes → String) (cfg : Config) (m : Metadata)
    (frames : List Bytes) : SessionResult :=
  if validate_metadata cfg m then
    match receive_file C H (metaFileSize m) (metaFileHash m) (metaIsEnc m) (metaKey? m) frames with
    | (true, content) =>
      { sent := [.READY, .COMPLETED], file? := some content, connection_closed := true }
    | (false, _) =>
      { sent := [.READY, .FAILED], file? := none, connection_closed := true }
  else
    { sent := [.INVALID_METADATA], file? := none, connection_closed := true }

/-! ## Sender (`sender.py`) -/

/-- `n.to_bytes(4, byteorder='big')`: the 4-byte big-endian length prefix. -/
def lenBytes4 (n : Nat) : Bytes :=
  [n / 2 ^ 24 % 256, n / 2 ^ 16 % 256, n / 2 ^ 8 % 256, n % 256]

/-- Big-endian decoding of a 4-byte prefix (what the receiver's
`int.from_bytes(..., byteorder='big')` computes). -/
def decodeBE4 (b : Bytes) : Nat :=
  match b with
  | [b0, b1, b2, b3] => ((b0 * 256 + b1) * 256 + b2) * 256 + b3
  | _ => 0

/-- One framed record on the wire: the 4-byte big-endian length prefix
followed by the payload (`sock.sendall(len(chunk).to_bytes(4, 'big'))` then
`sock.sendall(chunk)` in `_transfer_file`). -/
def frameOf (p : Bytes) : Bytes := lenBytes4 p.length ++ p

/-- The chunking loop of `FileSender._transfer_file` (`sender.py` lines
383-434): while bytes remain, read `min(CHUNK_SIZE, remaining)` bytes,
stop if the read is empty, otherwise optionally encrypt the chunk
(`encF`) and emit its framed record.  The fuel argument bounds the
iteration count; `content.length + 1` always suffices (each productive
iteration consumes at least one byte). -/
def send_loop (cs : Nat) (encF : Bytes → Bytes) : Nat → Bytes → List Bytes
  | 0, _ => []
  | fuel + 1, content =>
    if content.isEmpty then []
    else
      let chunk := content.take (min cs content.length)
      if chunk.isEmpty then []
      else frameOf (encF chunk) :: send_loop cs encF fuel (content.drop (min cs content.length))

/-- The full framed stream `_transfer_file` sends after `READY`: the chunk
records followed by the zero-length end-of-stream marker
(`sock.sendall((0).to_bytes(4, 'big'))`, `sender.py` line 438). -/
def transfer_frames (cs : Nat) (encF : Bytes → Bytes) (content : Bytes) : List Bytes :=
  send_loop cs encF (content.length + 1) content ++ [lenBytes4 0]

/-- What the sender observes when reading the final status token after the
end marker (`sender.py` lines 444-499): data bytes decoding to a string, an
empty read (receiver closed the connection), a socket timeout, a
`ConnectionResetError` / `ConnectionAbortedError` / `OSError` carrying a
message, or any other exception. -/
inductive ConfirmRead where
  | data (s : String)
  | closed
  | timedOut
  | connReset (msg : String)
  | otherExc
  deriving DecidableEq, Repr

/-- Does `ls` start with `needle`? (Bytewise comparison of char lists.) -/
def listStartsWith : List Char → List Char → Bool
  | [], _ => true
  | _ :: _, [] => false
  | a :: as, b :: bs => a == b && listStartsWith as bs

/-- Does the haystack contain `needle` as a contiguous run? -/
def listContains (needle : List Char) : List Char → Bool
  | [] => needle.isEmpty
  | c :: rest => listStartsWith needle (c :: rest) || listContains needle rest

/-- Python's `in` test on strings. -/
def containsSub (needle hay : String) : Bool := listContains needle.data hay.data

/-- The sender's test for "a reset/abort error that looks like a graceful
remote close": `"10054" in str(e) or "connection was forcibly closed" in
str(e).lower()` (`sender.py` line 484). -/
def looks_like_graceful_close (msg : String) : Bool :=
  containsSub "10054" msg || containsSub "connection was forcibly closed" (strToLower msg)

/-- The sender's interpretation of the final status read (`sender.py` lines
448-499): empty read is success, `COMPLETED` (after strip) is success, any
other token is failure, a timeout is treated as success, a reset/abort that
looks like a graceful close is success, any other reset/abort or exception
is failure. -/
def confirm_result (r : ConfirmRead) : Bool :=
  match r with
  | .closed => true
  | .data s => stripStr s == "COMPLETED"
  | .timedOut => true
  | .connReset msg => looks_like_graceful_close msg
  | .otherExc => false

/-! ## Discovery (`discover.py`) -/

/-- One entry of `DeviceDiscovery.devices`:
`{'name': ..., 'port': ..., 'last_seen': ...}`. -/
structure DeviceInfo where
  name : String
  port : Nat
  last_seen : Nat
  deriving DecidableEq, Repr

/-- The device table `DeviceDiscovery.devices`, a dictionary keyed by IP
string, modelled as a partial map. -/
abbrev DeviceTable := String → Option DeviceInfo

/-- The empty device table. -/
def empty_table : DeviceTable := fun _ => none

/-- `DeviceDiscovery._add_device` (`discover.py` lines 207-215): upsert the
record for `ip` with a fresh `last_seen` timestamp. -/
def add_device (ip name : String) (port : Nat) (now : Nat) (st : DeviceTable) : DeviceTable :=
  fun ip' => if ip' = ip then some { name := name, port := port, last_seen := now } else st ip'

/-- `DeviceDiscovery.get_devices` (`discover.py` lines 217-239): delete
every record with `now - last_seen > device_timeout` from the table, then
return a snapshot of what remains.  Result: (returned snapshot, table after
the eviction). -/
def get_devices (now : Nat) (device_timeout : Nat) (st : DeviceTable) :
    DeviceTable × DeviceTable :=
  let evicted : DeviceTable := fun ip =>
    match st ip with
    | some info => if device_timeout < now - info.last_seen then none else some info
    | none => none
  (evicted, evicted)

/-- A parsed announcement datagram (`json.loads` of the UDP payload in
`_listen_loop`); every field optional because the peer controls the JSON. -/
structure Announce where
  type? : Option String
  device_name? : Option String
  ip? : Option String
  port? : Option Nat
  app? : Option String
  deriving DecidableEq, Repr

/-- One iteration of `DeviceDiscovery._listen_loop` (`discover.py` lines
166-195) on a received datagram: drop datagrams from our own address, drop
payloads that fail to parse as JSON (`dgram = none`), drop messages whose
`type` is not `'discovery'` or whose `app` does not match, and upsert a
device record for everything else — keyed by the message's `ip` field,
falling back to the sender address, with defaulted name and port. -/
def listen_step (cfg : Config) (local_ip : String) (now : Nat) (addr : String)
    (dgram : Option Announce) (st : DeviceTable) : DeviceTable :=
  if addr = local_ip then st
  else
    match dgram with
    | none => st
    | some msg =>
      if msg.type? == some "discovery" && msg.app? == some cfg.APP_NAME then
        add_device (msg.ip?.getD addr) (msg.device_name?.getD "Unknown Device")
          (msg.port?.getD cfg.RECEIVER_PORT) now st
      else st

/-! ## File-name utilities (`utils.py`)

The filesystem is modelled as the finite list of paths that currently
exist (`os.path.exists p` becomes `p ∈ existing`).  The `os.path`
helpers used by `ensure_unique_filename` are modelled POSIX-style with
`'/'` as the separator. -/

/-- The characters `safe_filename` replaces (`'<>:"/\\|?*'`). -/
def invalidFilenameChars : List Char :=
  ['<', '>', ':', '"', '/', '\\', '|', '?', '*']

/-- Is the character stripped from the ends by `strip('. ')`? -/
def isStripChar (c : Char) : Bool := c == '.' || c == ' '

/-- `safe_filename` (`utils.py` lines 222-246): replace every invalid
character by `'_'`, strip leading and trailing dots and spaces, and fall
back to `"unnamed_file"` when nothing remains. -/
def safe_filename (filename : String) : String :=
  let replaced := filename.data.map (fun c => if c ∈ invalidFilenameChars then '_' else c)
  let stripped := ((replaced.dropWhile isStripChar).reverse.dropWhile isStripChar).reverse
  if stripped.isEmpty then "unnamed_file" else String.mk stripped

/-- Index of the last occurrence of `c` in `l`, if any (`str.rfind`). -/
def rfindChar (c : Char) (l : List Char) : Option Nat :=
  (l.reverse.findIdx? (· == c)).map (fun j => l.length - 1 - j)

/-- `os.path.split` for POSIX paths: split at the last separator; the head
keeps its trailing separators stripped unless it consists only of
separators. -/
def splitPath (p : String) : String × String :=
  let l := p.data
  let i := match rfindChar '/' l with
    | some j => j + 1
    | none => 0
  let head := l.take i
  let tail := l.drop i
  let head' :=
    if head.isEmpty || head.all (· == '/') then head
    else (head.reverse.dropWhile (· == '/')).reverse
  (String.mk head', String.mk tail)

/-- `os.path.join dir f` for POSIX paths (the source joins a directory with
a bare file name): an absolute `f` wins; otherwise insert a separator
unless the directory is empty or already ends with one. -/
def joinPath (dir f : String) : String :=
  if f.data.head? = some '/' then f
  else if dir = "" ∨ dir.data.getLast? = some '/' then dir ++ f
  else dir ++ "/" ++ f

/-- `os.path.splitext` for POSIX paths: split at the last `'.'` that lies
after the last separator and is preceded, within the base name, by at least
one character that is not a dot (so names made of leading dots keep no
extension). -/
def splitext (p : String) : String × String :=
  let l := p.data
  let sepIdx : Int := match rfindChar '/' l with
    | some j => (j : Int)
    | none => -1
  match rfindChar '.' l with
  | some d =>
    if sepIdx < (d : Int) ∧
        (((l.drop (sepIdx + 1).toNat).take (((d : Int) - sepIdx - 1).toNat)).any
          (fun c => !(c == '.'))) = true then
      (String.mk (l.take d), String.mk (l.drop d))
    else (p, "")
  | none => (p, "")

/-- Little-endian decimal digits of `n`, computed with explicit fuel
(`fuel = n` always suffices) so that the definition reduces by kernel
computation. -/
def decDigitsGo : Nat → Nat → List Nat
  | _, 0 => []
  | 0, _ + 1 => []
  | fuel + 1, m + 1 => (m + 1) % 10 :: decDigitsGo fuel ((m + 1) / 10)

/-- Value of a little-endian decimal digit list. -/
def fromDecDigits : List Nat → Nat
  | [] => 0
  | d :: ds => d + 10 * fromDecDigits ds

/-- The character of one decimal digit. -/
def digitChar : Nat → Char
  | 0 => '0' | 1 => '1' | 2 => '2' | 3 => '3' | 4 => '4'
  | 5 => '5' | 6 => '6' | 7 => '7' | 8 => '8' | 9 => '9'
  | _ => 'x'

/-- Decimal rendering of a natural number (Python's `str(counter)` inside
the f-string of `ensure_unique_filename`). -/
def natToDecimal (n : Nat) : String :=
  if n = 0 then "0" else String.mk ((decDigitsGo n n).reverse.map digitChar)

/-- The candidate file name `f"{name}_{counter}{ext}"` rebuilt into a full
path, for a given original path. -/
def uniqueCandidate (file_path : String) (counter : Nat) : String :=
  joinPath (splitPath file_path).1
    ((splitext (splitPath file_path).2).1 ++ "_" ++ natToDecimal counter ++
      (splitext (splitPath file_path).2).2)

/-- The `while True` search of `ensure_unique_filename`, with explicit
fuel: try `counter`, `counter + 1`, ... until a candidate is free.
`existing.length + 1` fuel always suffices (see
`uniqueCandidateLoop_succeeds`). -/
def uniqueCandidateLoop (existing : List String) (mk : Nat → String) :
    Nat → Nat → Option String
  | 0, _ => none
  | fuel + 1, c => if mk c ∈ existing then uniqueCandidateLoop existing mk fuel (c + 1) else some (mk c)

/-- `ensure_unique_filename` (`utils.py` lines 249-274): return the path
unchanged when it does not exist; otherwise append `_1`, `_2`, ... to the
stem until the path is free. -/
def ensure_unique_filename (existing : List String) (file_path : String) : String :=
  if file_path ∈ existing then
    (uniqueCandidateLoop existing (uniqueCandidate file_path) (existing.length + 1) 1).getD
      file_path
  else file_path

/-- Inverse of `digitChar` on decimal digits (proof device for the
injectivity of decimal rendering). -/
def charToDigit (c : Char) : Nat := c.toNat - 48

/-! ## Helper lemmas: padding, chunking, CBC -/

theorem pkcs7Pad_length (d : Bytes) :
    (pkcs7Pad d).length = d.length + (16 - d.length % 16) := by
  simp [pkcs7Pad]

theorem pkcs7Pad_length_mod (d : Bytes) : (pkcs7Pad d).length % 16 = 0 := by
  rw [pkcs7Pad_length]
  omega

theorem getLast?_replicate_pos (n a : Nat) (h : 1 ≤ n) :
    (List.replicate n a).getLast? = some a := by
  obtain ⟨k, hk⟩ : ∃ k, n = k + 1 := ⟨n - 1, by omega⟩
  rw [hk, List.replicate_succ', List.getLast?_concat]

theorem pkcs7Unpad_pad (d : Bytes) : pkcs7Unpad (pkcs7Pad d) = .ok d := by
  have hp : 1 ≤ 16 - d.length % 16 ∧ 16 - d.length % 16 ≤ 16 := by omega
  set p := 16 - d.length % 16 with hpdef
  have hpad : pkcs7Pad d = d ++ List.replicate p p := rfl
  have hlen : (d ++ List.replicate p p).length = d.length + p := by simp
  have hlast : (d ++ List.replicate p p).getLastD 0 = p := by
    rw [List.getLastD_eq_getLast?, List.getLast?_append,
      getLast?_replicate_pos p p hp.1]
    rfl
  have hsub : (d ++ List.replicate p p).length - p = d.length := by rw [hlen]; omega
  rw [hpad, pkcs7Unpad]
  rw [if_neg (show ¬((d ++ List.replicate p p).length = 0 ∨
    (d ++ List.replicate p p).length % 16 ≠ 0) by rw [hlen]; omega)]
  simp only [hlast, hsub]
  rw [if_neg (show ¬(p = 0 ∨ 16 < p) by omega)]
  rw [List.drop_left' rfl, List.take_left' rfl, if_neg (by simp)]

theorem chunks16_nil : chunks16 [] = [] := by
  simp [chunks16]

theorem chunks16_cons (b : Nat) (rest : Bytes) :
    chunks16 (b :: rest) = ((b :: rest).take 16) :: chunks16 ((b :: rest).drop 16) := by
  rw [chunks16]

theorem chunks16_append16 (a m : Bytes) (h : a.length = 16) :
    chunks16 (a ++ m) = a :: chunks16 m := by
  cases a with
  | nil => simp at h
  | cons x xs =>
    rw [List.cons_append, chunks16_cons]
    rw [← List.cons_append, List.take_left' h, List.drop_left' h]

theorem chunks16_flatten_aux :
    ∀ (n : Nat) (l : Bytes), l.length ≤ n → (chunks16 l).flatten = l := by
  intro n
  induction n with
  | zero =>
    intro l h
    have : l = [] := List.eq_nil_of_length_eq_zero (Nat.le_zero.mp h)
    simp [this, chunks16_nil]
  | succ n ih =>
    intro l h
    cases l with
    | nil => simp [chunks16_nil]
    | cons x xs =>
      rw [chunks16_cons, List.flatten_cons,
        ih _ (by simp only [List.length_drop, List.length_cons] at h ⊢; omega),
        List.take_append_drop]

theorem chunks16_flatten_self (l : Bytes) : (chunks16 l).flatten = l :=
  chunks16_flatten_aux l.length l (Nat.le_refl _)

theorem chunks16_all16_aux :
    ∀ (n : Nat) (l : Bytes), l.length ≤ n → 16 ∣ l.length →
      ∀ b ∈ chunks16 l, b.length = 16 := by
  intro n
  induction n with
  | zero =>
    intro l h _
    have : l = [] := List.eq_nil_of_length_eq_zero (Nat.le_zero.mp h)
    simp [this, chunks16_nil]
  | succ n ih =>
    intro l h hdvd b hb
    cases l with
    | nil => simp [chunks16_nil] at hb
    | cons x xs =>
      have hge : 16 ≤ (x :: xs).length := by
        rcases hdvd with ⟨k, hk⟩
        simp only [List.length_cons] at hk ⊢
        omega
      rw [chunks16_cons] at hb
      rcases List.mem_cons.mp hb with h1 | h2
      · rw [h1, List.length_take]; omega
      · refine ih _ ?_ ?_ b h2
        · simp only [List.length_drop, List.length_cons] at h ⊢
          omega
        · rcases hdvd with ⟨k, hk⟩
          simp only [List.length_cons] at hk hge
          refine ⟨k - 1, ?_⟩
          simp only [List.length_drop, List.length_cons]
          omega

theorem chunks16_all16 (l : Bytes) (hdvd : 16 ∣ l.length) :
    ∀ b ∈ chunks16 l, b.length = 16 :=
  chunks16_all16_aux l.length l (Nat.le_refl _) hdvd

theorem chunks16_flatten_blocks (bs : List Bytes) (h : ∀ b ∈ bs, b.length = 16) :
    chunks16 bs.flatten = bs := by
  induction bs with
  | nil => simp [chunks16_nil]
  | cons a rest ih =>
    rw [List.flatten_cons, chunks16_append16 _ _ (h a (by simp))]
    rw [ih (fun b hb => h b (by simp [hb]))]

theorem xorBlock_length (a b : Bytes) : (xorBlock a b).length = min a.length b.length :=
  List.length_zipWith _ _ _

theorem xorBlock_cancel :
    ∀ (a b : Bytes), a.length = b.length → xorBlock (xorBlock a b) b = a := by
  intro a
  induction a with
  | nil => intro b _; simp [xorBlock]
  | cons x xs ih =>
    intro b h
    cases b with
    | nil => simp at h
    | cons y ys =>
      have hx : Nat.xor (Nat.xor x y) y = x := by
        show (x ^^^ y) ^^^ y = x
        rw [Nat.xor_assoc, Nat.xor_self, Nat.xor_zero]
      simp only [xorBlock, List.zipWith_cons_cons] at *
      rw [hx, ih ys (by simpa using h)]

theorem flatten_all16_length (bs : List Bytes) (h : ∀ b ∈ bs, b.length = 16) :
    bs.flatten.length = 16 * bs.length := by
  induction bs with
  | nil => simp
  | cons a rest ih =>
    rw [List.flatten_cons, List.length_append, h a (by simp),
      ih (fun b hb => h b (by simp [hb]))]
    simp only [List.length_cons]
    ring

theorem cbcEncBlocks_length_eq (C : BlockCipher) (key : Bytes) :
    ∀ (ps : List Bytes) (prev : Bytes),
      (cbcEncBlocks C key prev ps).length = ps.length := by
  intro ps
  induction ps with
  | nil => intro prev; simp [cbcEncBlocks]
  | cons p rest ih => intro prev; simp [cbcEncBlocks, ih]

theorem cbcEncBlocks_all16 (C : BlockCipher) (key : Bytes)
    (hlen : ∀ b, b.length = 16 → (C.enc key b).length = 16) :
    ∀ (ps : List Bytes) (prev : Bytes), prev.length = 16 →
      (∀ p ∈ ps, p.length = 16) →
      ∀ c ∈ cbcEncBlocks C key prev ps, c.length = 16 := by
  intro ps
  induction ps with
  | nil => intro prev _ _ c hc; simp [cbcEncBlocks] at hc
  | cons p rest ih =>
    intro prev hprev hall c hc
    have hxor : (xorBlock p prev).length = 16 := by
      rw [xorBlock_length, hall p (by simp), hprev]
      omega
    have henc : (C.enc key (xorBlock p prev)).length = 16 := hlen _ hxor
    rw [cbcEncBlocks] at hc
    rcases List.mem_cons.mp hc with h1 | h2
    · rw [h1]; exact henc
    · exact ih _ henc (fun q hq => hall q (by simp [hq])) c h2

theorem cbcDecBlocks_cbcEncBlocks (C : BlockCipher) (key : Bytes)
    (hlen : ∀ b, b.length = 16 → (C.enc key b).length = 16)
    (hinv : ∀ b, C.dec key (C.enc key b) = b) :
    ∀ (ps : List Bytes) (prev : Bytes), prev.length = 16 →
      (∀ p ∈ ps, p.length = 16) →
      cbcDecBlocks C key prev (cbcEncBlocks C key prev ps) = ps := by
  intro ps
  induction ps with
  | nil => intro prev _ _; simp [cbcEncBlocks, cbcDecBlocks]
  | cons p rest ih =>
    intro prev hprev hall
    have hxor : (xorBlock p prev).length = 16 := by
      rw [xorBlock_length, hall p (by simp), hprev]
      omega
    rw [cbcEncBlocks, cbcDecBlocks, hinv]
    rw [xorBlock_cancel p prev (by rw [hall p (by simp), hprev])]
    rw [ih _ (hlen _ hxor) (fun q hq => hall q (by simp [hq]))]

theorem cbcEncBlocks_cbcDecBlocks (C : BlockCipher) (key : Bytes)
    (hdlen : ∀ b, b.length = 16 → (C.dec key b).length = 16)
    (hinv : ∀ b, C.enc key (C.dec key b) = b) :
    ∀ (cs : List Bytes) (prev : Bytes), prev.length = 16 →
      (∀ c ∈ cs, c.length = 16) →
      cbcEncBlocks C key prev (cbcDecBlocks C key prev cs) = cs := by
  intro cs
  induction cs with
  | nil => intro prev _ _; simp [cbcEncBlocks, cbcDecBlocks]
  | cons c rest ih =>
    intro prev hprev hall
    rw [cbcDecBlocks, cbcEncBlocks]
    rw [xorBlock_cancel (C.dec key c) prev (by rw [hdlen c (hall c (by simp)), hprev])]
    rw [hinv]
    rw [ih _ (hall c (by simp)) (fun q hq => hall q (by simp [hq]))]

theorem cbcDecBlocks_all16 (C : BlockCipher) (key : Bytes)
    (hdlen : ∀ b, b.length = 16 → (C.dec key b).length = 16) :
    ∀ (cs : List Bytes) (prev : Bytes), prev.length = 16 →
      (∀ c ∈ cs, c.length = 16) →
      ∀ q ∈ cbcDecBlocks C key prev cs, q.length = 16 := by
  intro cs
  induction cs with
  | nil => intro prev _ _ q hq; simp [cbcDecBlocks] at hq
  | cons c rest ih =>
    intro prev hprev hall q hq
    rw [cbcDecBlocks] at hq
    rcases List.mem_cons.mp hq with h1 | h2
    · rw [h1, xorBlock_length, hdlen c (hall c (by simp)), hprev]
      omega
    · exact ih _ (hall c (by simp)) (fun r hr => hall r (by simp [hr])) q h2

theorem pkcs7Unpad_ok_imp (m d : Bytes) (h : pkcs7Unpad m = .ok d) : m = pkcs7Pad d := by
  rw [pkcs7Unpad] at h
  by_cases h1 : m.length = 0 ∨ m.length % 16 ≠ 0
  · rw [if_pos h1] at h; exact absurd h (by simp)
  · rw [if_neg h1] at h
    push_neg at h1
    by_cases h2 : m.getLastD 0 = 0 ∨ 16 < m.getLastD 0
    · rw [if_pos h2] at h; exact absurd h (by simp)
    · rw [if_neg h2] at h
      push_neg at h2
      by_cases h3 : m.drop (m.length - m.getLastD 0) ≠ List.replicate (m.getLastD 0) (m.getLastD 0)
      · rw [if_pos h3] at h; exact absurd h (by simp)
      · rw [if_neg h3] at h
        push_neg at h3
        simp only [Except.ok.injEq] at h
        have hd : d = m.take (m.length - m.getLastD 0) := h.symm
        set p := m.getLastD 0 with hpdef
        have hdlen : d.length = m.length - p := by
          rw [hd, List.length_take]; omega
        have hplen : p ≤ m.length := by
          have := List.length_replicate p p ▸ congrArg List.length h3
          simp only [List.length_drop] at this
          omega
        have hpval : p = 16 - d.length % 16 := by omega
        rw [pkcs7Pad, ← hpval, hd, ← h3, List.take_append_drop]


/-! ## Claim theorems: encryption (C1, C10, C7) -/

/-- C1: for every byte string `P` and every 32-byte key `K`, decrypting the
result of encrypting `P` with `K` returns `P` exactly:
`decrypt_data (encrypt_data P K) K = P`, where `encrypt_data` prepends its
16-byte IV to the AES-256-CBC, PKCS7-padded ciphertext and `decrypt_data`
splits that IV off before decrypting and unpadding.  The block-cipher
hypotheses are the defining properties of AES: a 16-byte block maps to a
16-byte block and per-block decryption inverts per-block encryption. -/
theorem encrypt_then_decrypt_roundtrip (C : BlockCipher) (key iv P : Bytes)
    (hk : key.length = 32) (hiv : iv.length = 16)
    (hlen : ∀ b, b.length = 16 → (C.enc key b).length = 16)
    (hinv : ∀ b, C.dec key (C.enc key b) = b) :
    ∃ ct, encrypt_data C iv P key = .ok ct ∧ decrypt_data C ct key = .ok P := by
  have hkey : key.length = 16 ∨ key.length = 24 ∨ key.length = 32 := Or.inr (Or.inr hk)
  have hpdvd : 16 ∣ (pkcs7Pad P).length := Nat.dvd_of_mod_eq_zero (pkcs7Pad_length_mod P)
  have hblocks : ∀ b ∈ chunks16 (pkcs7Pad P), b.length = 16 := chunks16_all16 _ hpdvd
  have hencB : ∀ c ∈ cbcEncBlocks C key iv (chunks16 (pkcs7Pad P)), c.length = 16 :=
    cbcEncBlocks_all16 C key hlen _ iv hiv hblocks
  have hflat : (cbcEncBlocks C key iv (chunks16 (pkcs7Pad P))).flatten.length =
      16 * (cbcEncBlocks C key iv (chunks16 (pkcs7Pad P))).length :=
    flatten_all16_length _ hencB
  refine ⟨iv ++ (cbcEncBlocks C key iv (chunks16 (pkcs7Pad P))).flatten, ?_, ?_⟩
  · rw [encrypt_data, if_neg (not_not_intro hkey), if_neg (not_not_intro hiv)]
  · rw [decrypt_data, List.take_left' hiv, List.drop_left' hiv,
      if_neg (not_not_intro hkey), if_neg (not_not_intro hiv),
      if_neg (not_not_intro (show (cbcEncBlocks C key iv
        (chunks16 (pkcs7Pad P))).flatten.length % 16 = 0 by rw [hflat]; omega))]
    rw [chunks16_flatten_blocks _ hencB,
      cbcDecBlocks_cbcEncBlocks C key hlen hinv _ iv hiv hblocks,
      chunks16_flatten_self]
    exact pkcs7Unpad_pad P

/-- Witness for C1 at a concrete input: the identity cipher, an all-zero
32-byte key, an all-zero 16-byte IV and the payload `[1, 2, 3]`. -/
theorem encrypt_then_decrypt_roundtrip_witness :
    ∃ ct, encrypt_data idCipher (List.replicate 16 0) [1, 2, 3] (List.replicate 32 0) = .ok ct ∧
      decrypt_data idCipher ct (List.replicate 32 0) = .ok [1, 2, 3] :=
  encrypt_then_decrypt_roundtrip idCipher (List.replicate 32 0) (List.replicate 16 0)
    [1, 2, 3] (by simp) (by simp) (fun _ h => h) (fun _ => rfl)

/-- C10: for every plaintext `P` and valid key, the output of `encrypt_data`
is exactly `16 + 16 * (P.length / 16 + 1)` bytes long — the 16-byte IV plus
the PKCS7-padded ciphertext — a function of the plaintext length alone, and
always at least 32 bytes. -/
theorem encrypt_data_output_length (C : BlockCipher) (key iv P : Bytes)
    (hk : key.length = 32) (hiv : iv.length = 16)
    (hlen : ∀ b, b.length = 16 → (C.enc key b).length = 16) :
    ∃ ct, encrypt_data C iv P key = .ok ct ∧
      ct.length = 16 + 16 * (P.length / 16 + 1) ∧ 32 ≤ ct.length := by
  have hkey : key.length = 16 ∨ key.length = 24 ∨ key.length = 32 := Or.inr (Or.inr hk)
  have hpdvd : 16 ∣ (pkcs7Pad P).length := Nat.dvd_of_mod_eq_zero (pkcs7Pad_length_mod P)
  have hblocks : ∀ b ∈ chunks16 (pkcs7Pad P), b.length = 16 := chunks16_all16 _ hpdvd
  have hencB : ∀ c ∈ cbcEncBlocks C key iv (chunks16 (pkcs7Pad P)), c.length = 16 :=
    cbcEncBlocks_all16 C key hlen _ iv hiv hblocks
  refine ⟨iv ++ (cbcEncBlocks C key iv (chunks16 (pkcs7Pad P))).flatten, ?_, ?_⟩
  · rw [encrypt_data, if_neg (not_not_intro hkey), if_neg (not_not_intro hiv)]
  · have h1 : (cbcEncBlocks C key iv (chunks16 (pkcs7Pad P))).flatten.length =
        16 * (chunks16 (pkcs7Pad P)).length := by
      rw [flatten_all16_length _ hencB, cbcEncBlocks_length_eq]
    have h2 : (chunks16 (pkcs7Pad P)).flatten.length = 16 * (chunks16 (pkcs7Pad P)).length :=
      flatten_all16_length _ hblocks
    rw [chunks16_flatten_self] at h2
    have h3 := pkcs7Pad_length P
    constructor
    · rw [List.length_append, hiv, h1, ← h2, h3]
      have : P.length % 16 < 16 := Nat.mod_lt _ (by omega)
      omega
    · rw [List.length_append, hiv, h1, ← h2, h3]
      omega

/-- Witness for C10 at a concrete input: the identity cipher, an all-zero
32-byte key, an all-zero 16-byte IV and a 3-byte payload (output length
`16 + 16 * 1 = 32`). -/
theorem encrypt_data_output_length_witness :
    ∃ ct, encrypt_data idCipher (List.replicate 16 0) [1, 2, 3] (List.replicate 32 0) = .ok ct ∧
      ct.length = 16 + 16 * ([1, 2, 3].length / 16 + 1) ∧ 32 ≤ ct.length :=
  encrypt_data_output_length idCipher (List.replicate 32 0) (List.replicate 16 0)
    [1, 2, 3] (by simp) (by simp) (fun _ h => h)

/-- C7: `decrypt_data` fails with a `CryptoError` on truncated input shorter
than the 16-byte IV, and on any input whose payload is not valid padded
ciphertext under the given key: whenever it returns bytes `d`, the input was
exactly the encryption of `d` under that key with the input's own IV.  The
hypotheses are the defining properties of the AES block decryption. -/
theorem decrypt_data_failure_characterization (C : BlockCipher) (key x : Bytes)
    (hdlen : ∀ b, b.length = 16 → (C.dec key b).length = 16)
    (hinv : ∀ b, C.enc key (C.dec key b) = b) :
    (x.length < 16 → ∃ e, decrypt_data C x key = .error e) ∧
    (∀ d, decrypt_data C x key = .ok d → encrypt_data C (x.take 16) d key = .ok x) := by
  constructor
  · intro hx
    rw [decrypt_data]
    by_cases hkey : key.length = 16 ∨ key.length = 24 ∨ key.length = 32
    · rw [if_neg (not_not_intro hkey),
        if_pos (show (x.take 16).length ≠ 16 by simp [List.length_take]; omega)]
      exact ⟨.invalidIV, rfl⟩
    · rw [if_pos hkey]
      exact ⟨.invalidKeySize, rfl⟩
  · intro d hd
    rw [decrypt_data] at hd
    by_cases hkey : key.length = 16 ∨ key.length = 24 ∨ key.length = 32
    · rw [if_neg (not_not_intro hkey)] at hd
      by_cases hiv16 : (x.take 16).length = 16
      · rw [if_neg (not_not_intro hiv16)] at hd
        by_cases hmod : (x.drop 16).length % 16 = 0
        · rw [if_neg (not_not_intro hmod)] at hd
          have hm := pkcs7Unpad_ok_imp _ _ hd
          have hctall : ∀ c ∈ chunks16 (x.drop 16), c.length = 16 :=
            chunks16_all16 _ (Nat.dvd_of_mod_eq_zero hmod)
          have hpall : ∀ q ∈ cbcDecBlocks C key (x.take 16) (chunks16 (x.drop 16)),
              q.length = 16 := cbcDecBlocks_all16 C key hdlen _ _ hiv16 hctall
          have hchunks : chunks16 (pkcs7Pad d) =
              cbcDecBlocks C key (x.take 16) (chunks16 (x.drop 16)) := by
            rw [← hm]
            exact chunks16_flatten_blocks _ hpall
          rw [encrypt_data, if_neg (not_not_intro hkey), if_neg (not_not_intro hiv16),
            hchunks, cbcEncBlocks_cbcDecBlocks C key hdlen hinv _ _ hiv16 hctall,
            chunks16_flatten_self, List.take_append_drop]
        · rw [if_pos hmod] at hd
          exact absurd hd (by simp)
      · rw [if_pos hiv16] at hd
        exact absurd hd (by simp)
    · rw [if_pos hkey] at hd
      exact absurd hd (by simp)

/-- Witness for C7 at a concrete input: the identity cipher, an all-zero
32-byte key, and a 3-byte (truncated) input, which is rejected. -/
theorem decrypt_data_failure_characterization_witness :
    ∃ e, decrypt_data idCipher [1, 2, 3] (List.replicate 32 0) = .error e :=
  (decrypt_data_failure_characterization idCipher (List.replicate 32 0) [1, 2, 3]
    (fun _ h => h) (fun _ => rfl)).1 (by decide)

/-! ## Claim theorems: receiver metadata and integrity (C2, C3) -/

/-- C2: a received metadata object is invalid exactly when it misses a
required field, carries a wrong protocol tag (`type` or `app`), declares
`file_size <= 0` or `file_size > max_file_size`, or an empty or over-length
file name; for every invalid metadata object the receiver sends
`INVALID_METADATA`, never sends `READY`, creates no destination file, and
closes the connection — in particular when `file_size = 0`. -/
theorem invalid_metadata_rejected (C : BlockCipher) (H : Bytes → String) (cfg : Config)
    (m : Metadata) (frames : List Bytes) :
    (validate_metadata cfg m = false ↔
      (m.type? = none ∨ m.file_name? = none ∨ m.file_size? = none ∨
       m.file_hash? = none ∨ m.app? = none ∨
       m.type? ≠ some "file_transfer" ∨ m.app? ≠ some cfg.APP_NAME ∨
       (∃ s, m.file_size? = some s ∧ (s ≤ 0 ∨ cfg.MAX_FILE_SIZE < s)) ∨
       (∃ n, m.file_name? = some n ∧ (n = "" ∨ 255 < n.length)))) ∧
    (validate_metadata cfg m = false →
      handle_client C H cfg m frames =
        { sent := [.INVALID_METADATA], file? := none, connection_closed := true } ∧
      Token.READY ∉ (handle_client C H cfg m frames).sent) ∧
    (m.file_size? = some 0 → validate_metadata cfg m = false) := by
  refine ⟨?_, ?_, ?_⟩
  · cases htype : m.type? <;> cases hname : m.file_name? <;> cases hsize : m.file_size? <;>
      cases hhash : m.file_hash? <;> cases happ : m.app? <;>
      simp [validate_metadata, htype, hname, hsize, hhash, happ]
    rename_i ty name size hash app
    constructor
    · intro h
      by_cases hty : ty = "file_transfer"
      · by_cases hap : app = cfg.APP_NAME
        · rcases lt_or_le 0 size with hs | hs
          · rcases le_or_lt size cfg.MAX_FILE_SIZE with hm | hm
            · by_cases hnm : name = ""
              · tauto
              · exact Or.inr (Or.inr (Or.inr (Or.inr (h hty hap hs hm hnm))))
            · tauto
          · tauto
        · tauto
      · tauto
    · intro h h1 h2 h3 h4 h5
      rcases h with h | h | (h | h) | h | h
      · exact absurd h1 h
      · exact absurd h2 h
      · omega
      · omega
      · exact absurd h h5
      · exact h
  · intro h
    have hres : handle_client C H cfg m frames =
        { sent := [.INVALID_METADATA], file? := none, connection_closed := true } := by
      rw [handle_client, h]
      simp
    refine ⟨hres, ?_⟩
    rw [hres]
    decide
  · intro h0
    cases htype : m.type? <;> cases hname : m.file_name? <;>
      cases hhash : m.file_hash? <;> cases happ : m.app? <;>
      simp [validate_metadata, htype, hname, h0, hhash, happ]

/-- Witness for C2 at a concrete input: metadata with `file_size = 0` is
rejected with `INVALID_METADATA`, no `READY`, and no destination file. -/
theorem invalid_metadata_rejected_witness :
    handle_client idCipher (fun _ => "") defaultConfig
      { type? := some "file_transfer", file_name? := some "a.txt", file_size? := some 0,
        file_hash? := some "aa", app? := some "Fshare", encrypted? := none,
        encryption_key? := none } [] =
      { sent := [.INVALID_METADATA], file? := none, connection_closed := true } ∧
    Token.READY ∉ (handle_client idCipher (fun _ => "") defaultConfig
      { type? := some "file_transfer", file_name? := some "a.txt", file_size? := some 0,
        file_hash? := some "aa", app? := some "Fshare", encrypted? := none,
        encryption_key? := none } []).sent :=
  (invalid_metadata_rejected idCipher (fun _ => "") defaultConfig
    { type? := some "file_transfer", file_name? := some "a.txt", file_size? := some 0,
      file_hash? := some "aa", app? := some "Fshare", encrypted? := none,
      encryption_key? := none } []).2.1
    ((invalid_metadata_rejected idCipher (fun _ => "") defaultConfig
      { type? := some "file_transfer", file_name? := some "a.txt", file_size? := some 0,
        file_hash? := some "aa", app? := some "Fshare", encrypted? := none,
        encryption_key? := none } []).2.2 rfl)

/-- C3: for every completed reception (the chunk loop finished normally)
whose written content hashes differently from the declared `content_hash`,
the receiver sends `READY` then `FAILED` — never `COMPLETED` — and deletes
the partial destination file, leaving no artifact on disk. -/
theorem hash_mismatch_deletes_file (C : BlockCipher) (H : Bytes → String) (cfg : Config)
    (m : Metadata) (frames : List Bytes)
    (hvalid : validate_metadata cfg m = true)
    (hloop : (receive_loop C (metaFileSize m) (metaIsEnc m) (metaKey? m) frames 0 []).1 = true)
    (hmismatch : verify_integrity H
      (receive_loop C (metaFileSize m) (metaIsEnc m) (metaKey? m) frames 0 []).2
      (metaFileHash m) = false) :
    handle_client C H cfg m frames =
      { sent := [.READY, .FAILED], file? := none, connection_closed := true } ∧
    Token.COMPLETED ∉ (handle_client C H cfg m frames).sent := by
  rcases hrl : receive_loop C (metaFileSize m) (metaIsEnc m) (metaKey? m) frames 0 []
    with ⟨ok, content⟩
  rw [hrl] at hloop hmismatch
  simp only at hloop hmismatch
  subst hloop
  have hrf : receive_file C H (metaFileSize m) (metaFileHash m) (metaIsEnc m) (metaKey? m)
      frames = (false, content) := by
    rw [receive_file, hrl]
    simp [hmismatch]
  have hres : handle_client C H cfg m frames =
      { sent := [.READY, .FAILED], file? := none, connection_closed := true } := by
    rw [handle_client, hvalid, hrf]
    simp
  refine ⟨hres, ?_⟩
  rw [hres]
  decide

/-- Witness for C3 at a concrete input: a valid 1-byte metadata whose
declared hash `"bb"` differs from the hash `"aa"` of the (empty) written
content; the session ends `READY`, `FAILED` with the file deleted. -/
theorem hash_mismatch_deletes_file_witness :
    handle_client idCipher (fun _ => "aa") defaultConfig
      { type? := some "file_transfer", file_name? := some "a.txt", file_size? := some 1,
        file_hash? := some "bb", app? := some "Fshare", encrypted? := none,
        encryption_key? := none } [[]] =
      { sent := [.READY, .FAILED], file? := none, connection_closed := true } ∧
    Token.COMPLETED ∉ (handle_client idCipher (fun _ => "aa") defaultConfig
      { type? := some "file_transfer", file_name? := some "a.txt", file_size? := some 1,
        file_hash? := some "bb", app? := some "Fshare", encrypted? := none,
        encryption_key? := none } [[]]).sent :=
  hash_mismatch_deletes_file idCipher (fun _ => "aa") defaultConfig
    { type? := some "file_transfer", file_name? := some "a.txt", file_size? := some 1,
      file_hash? := some "bb", app? := some "Fshare", encrypted? := none,
      encryption_key? := none } [[]] (by decide) (by decide) (by decide)

/-! ## Claim theorems: sender (C4, C6) -/

/-- C4: after the end-of-stream marker, the sender treats an empty read
(connection closed with no bytes) and a reset/abort error that looks like a
graceful remote close as successes, exactly as if it had read `COMPLETED`. -/
theorem implicit_success_on_close (msg : String) :
    confirm_result .closed = true ∧
    confirm_result (.data "COMPLETED") = true ∧
    confirm_result .closed = confirm_result (.data "COMPLETED") ∧
    (looks_like_graceful_close msg = true → confirm_result (.connReset msg) = true) := by
  refine ⟨rfl, by decide, by decide, ?_⟩
  intro h
  simpa [confirm_result] using h

/-- Witness for C4 at a concrete input: the Windows reset message the source
singles out is treated as success. -/
theorem implicit_success_on_close_witness :
    confirm_result (.connReset
      "[WinError 10054] An existing connection was forcibly closed by the remote host") =
      true :=
  (implicit_success_on_close
    "[WinError 10054] An existing connection was forcibly closed by the remote host").2.2.2
    (by decide)

/-- Every frame of the chunking loop is a framed record of some encrypted
chunk read from the file, and read chunks are at most `cs` bytes long. -/
theorem send_loop_mem (cs : Nat) (encF : Bytes → Bytes) :
    ∀ (fuel : Nat) (content : Bytes), ∀ f ∈ send_loop cs encF fuel content,
      ∃ ch, ch.length ≤ cs ∧ f = frameOf (encF ch) := by
  intro fuel
  induction fuel with
  | zero => intro content f hf; simp [send_loop] at hf
  | succ n ih =>
    intro content f hf
    simp only [send_loop] at hf
    split at hf
    · simp at hf
    · split at hf
      · simp at hf
      · rcases List.mem_cons.mp hf with h | h
        · exact ⟨_, by rw [List.length_take]; omega, h⟩
        · exact ih _ f h

theorem frameOf_drop4 (p : Bytes) : (frameOf p).drop 4 = p := List.drop_left' rfl

theorem frameOf_take4 (p : Bytes) : (frameOf p).take 4 = lenBytes4 p.length :=
  List.take_left' rfl

theorem decodeBE4_lenBytes4 (n : Nat) (h : n < 2 ^ 32) : decodeBE4 (lenBytes4 n) = n := by
  simp only [lenBytes4, decodeBE4]
  omega

/-- With positive chunk size and enough fuel, the concatenated payloads of
the unencrypted chunking loop reproduce the file content exactly. -/
theorem send_loop_id_flatten (cs : Nat) (hcs : 0 < cs) :
    ∀ (fuel : Nat) (content : Bytes), content.length < fuel →
      ((send_loop cs (fun b => b) fuel content).map (fun f => f.drop 4)).flatten = content := by
  intro fuel
  induction fuel with
  | zero => intro content h; omega
  | succ n ih =>
    intro content h
    simp only [send_loop]
    by_cases h1 : content.isEmpty
    · rw [if_pos h1]
      rw [List.isEmpty_iff] at h1
      simp [h1]
    · rw [if_neg h1]
      rw [List.isEmpty_iff] at h1
      have hlen : content.length ≠ 0 := by
        simpa [List.length_eq_zero] using h1
      have h2 : ¬(content.take (min cs content.length)).isEmpty := by
        rw [List.isEmpty_iff, List.take_eq_nil_iff]
        push_neg
        exact ⟨by omega, h1⟩
      rw [if_neg h2]
      simp only [List.map_cons, List.flatten_cons]
      rw [frameOf_drop4,
        ih (content.drop (min cs content.length))
          (by simp only [List.length_drop]; omega),
        List.take_append_drop]

/-- C6: every record the sender streams is a 4-byte big-endian length
prefix followed by exactly that many payload bytes; the zero-length
end-of-stream marker is always the last record sent — for every file
content, including lengths that are exact multiples of the chunk size —
and in the unencrypted case the payloads reassemble the file exactly. -/
theorem sender_framing (cs : Nat) (encF : Bytes → Bytes) (content : Bytes)
    (hcs : 0 < cs) (h32 : ∀ ch, ch.length ≤ cs → (encF ch).length < 2 ^ 32) :
    (∀ f ∈ transfer_frames cs encF content,
      ∃ p, f = lenBytes4 p.length ++ p ∧ (f.take 4).length = 4 ∧
        decodeBE4 (f.take 4) = p.length ∧ f.drop 4 = p) ∧
    (transfer_frames cs encF content).getLast? = some (lenBytes4 0) ∧
    ((transfer_frames cs (fun b => b) content).map (fun f => f.drop 4)).flatten = content := by
  refine ⟨?_, ?_, ?_⟩
  · intro f hf
    rw [transfer_frames, List.mem_append] at hf
    rcases hf with hf | hf
    · obtain ⟨ch, hle, hch⟩ := send_loop_mem cs encF _ content f hf
      refine ⟨encF ch, hch, ?_, ?_, ?_⟩
      · rw [hch, frameOf_take4]; rfl
      · rw [hch, frameOf_take4, decodeBE4_lenBytes4 _ (h32 ch hle)]
      · rw [hch, frameOf_drop4]
    · have hf0 : f = lenBytes4 0 := by simpa using hf
      refine ⟨[], ?_, ?_, ?_, ?_⟩
      · simpa using hf0
      · rw [hf0]; rfl
      · rw [hf0]; rfl
      · rw [hf0]; rfl
  · rw [transfer_frames, List.getLast?_append]
    rfl
  · rw [transfer_frames, List.map_append, List.flatten_append]
    rw [send_loop_id_flatten cs hcs _ content (by omega)]
    simp [frameOf_drop4, lenBytes4]

/-- Witness for C6 at a concrete input: a 6-byte file with chunk size 3 (an
exact multiple), identity encryption. -/
theorem sender_framing_witness :
    (transfer_frames 3 (fun b => b) [1, 2, 3, 4, 5, 6]).getLast? = some (lenBytes4 0) ∧
    ((transfer_frames 3 (fun b => b) [1, 2, 3, 4, 5, 6]).map (fun f => f.drop 4)).flatten =
      [1, 2, 3, 4, 5, 6] :=
  ⟨(sender_framing 3 (fun b => b) [1, 2, 3, 4, 5, 6] (by decide)
      (fun _ h => by simpa using Nat.lt_of_le_of_lt h (by norm_num))).2.1,
    (sender_framing 3 (fun b => b) [1, 2, 3, 4, 5, 6] (by decide)
      (fun _ h => by simpa using Nat.lt_of_le_of_lt h (by norm_num))).2.2⟩

/-! ## Claim theorems: discovery (C5, C8) -/

/-- C5: a peer record is alive iff `now - last_seen <= device_timeout`;
`get_devices` evicts every expired record as a side effect of the read and
returns a snapshot containing exactly the records whose `last_seen` lies
within the last `device_timeout` seconds; in particular a record refreshed
at time `T` is present at any read before `T + device_timeout` and absent
at any read after it. -/
theorem get_devices_aliveness (device_timeout : Nat) (st : DeviceTable) (now : Nat) :
    (get_devices now device_timeout st).1 = (get_devices now device_timeout st).2 ∧
    (∀ ip info, (get_devices now device_timeout st).1 ip = some info ↔
      (st ip = some info ∧ now - info.last_seen ≤ device_timeout)) ∧
    (∀ ip name port T st₀, now < T + device_timeout →
      (get_devices now device_timeout (add_device ip name port T st₀)).1 ip =
        some { name := name, port := port, last_seen := T }) ∧
    (∀ ip name port T st₀, T + device_timeout < now →
      (get_devices now device_timeout (add_device ip name port T st₀)).1 ip = none) := by
  refine ⟨rfl, ?_, ?_, ?_⟩
  · intro ip info
    simp only [get_devices]
    cases hst : st ip with
    | none => simp [hst]
    | some i =>
      simp only [hst]
      by_cases h : device_timeout < now - i.last_seen
      · rw [if_pos h]
        constructor
        · intro he
          exact absurd he (by simp)
        · rintro ⟨he, hle⟩
          injection he with he'
          subst he'
          exact absurd hle (by omega)
      · rw [if_neg h]
        constructor
        · intro he
          refine ⟨he, ?_⟩
          injection he with he'
          subst he'
          omega
        · exact fun hh => hh.1
  · intro ip name port T st₀ hlt
    have h1 : ¬device_timeout < now - T := by omega
    simp [get_devices, add_device, h1]
  · intro ip name port T st₀ hlt
    have h1 : device_timeout < now - T := by omega
    simp [get_devices, add_device, h1]

/-- Witness for C5 at concrete inputs: a record refreshed at time 5 with a
30-second timeout is present at a read at time 20 and evicted at 99. -/
theorem get_devices_aliveness_witness :
    (get_devices 20 30 (add_device "10.0.0.2" "Bob" 8888 5 empty_table)).1 "10.0.0.2" =
      some { name := "Bob", port := 8888, last_seen := 5 } ∧
    (get_devices 99 30 (add_device "10.0.0.2" "Bob" 8888 5 empty_table)).1 "10.0.0.2" =
      none :=
  ⟨(get_devices_aliveness 30 empty_table 20).2.2.1 "10.0.0.2" "Bob" 8888 5 empty_table
      (by decide),
    (get_devices_aliveness 30 empty_table 99).2.2.2 "10.0.0.2" "Bob" 8888 5 empty_table
      (by decide)⟩

/-- Counterexample to C8 as stated: a well-formed discovery datagram whose
JSON `ip` field (`10.0.0.9`) differs from the sender address (`10.0.0.2`)
creates no record keyed by the sender IP — the record is keyed by the
message's `ip` field instead. -/
theorem listen_step_sender_key_counterexample :
    listen_step defaultConfig "10.0.0.1" 7 "10.0.0.2"
      (some { type? := some "discovery", device_name? := some "Bob", ip? := some "10.0.0.9",
              port? := some 8888, app? := some "Fshare" }) empty_table "10.0.0.2" = none ∧
    listen_step defaultConfig "10.0.0.1" 7 "10.0.0.2"
      (some { type? := some "discovery", device_name? := some "Bob", ip? := some "10.0.0.9",
              port? := some 8888, app? := some "Fshare" }) empty_table "10.0.0.9" =
      some { name := "Bob", port := 8888, last_seen := 7 } := by
  constructor <;> decide

/-- C8 (amended): the listener discards datagrams from its own address,
datagrams that fail to parse, and messages whose `type` is not `discovery`
or whose `app` does not match — none of these change the device table; for
every other datagram it upserts a record keyed by the message's `ip` field
(falling back to the sender address when absent), with defaulted name and
port and a fresh `last_seen`. -/
theorem listen_step_spec (cfg : Config) (local_ip : String) (now : Nat) (addr : String)
    (dgram : Option Announce) (st : DeviceTable) :
    (addr = local_ip → listen_step cfg local_ip now addr dgram st = st) ∧
    (dgram = none → listen_step cfg local_ip now addr dgram st = st) ∧
    (∀ msg, dgram = some msg →
      ¬(msg.type? = some "discovery" ∧ msg.app? = some cfg.APP_NAME) →
      listen_step cfg local_ip now addr dgram st = st) ∧
    (∀ msg, dgram = some msg → addr ≠ local_ip →
      msg.type? = some "discovery" → msg.app? = some cfg.APP_NAME →
      listen_step cfg local_ip now addr dgram st =
        add_device (msg.ip?.getD addr) (msg.device_name?.getD "Unknown Device")
          (msg.port?.getD cfg.RECEIVER_PORT) now st) := by
  refine ⟨?_, ?_, ?_, ?_⟩
  · intro h
    simp [listen_step, h]
  · intro h
    subst h
    by_cases ha : addr = local_ip <;> simp [listen_step, ha]
  · intro msg hmsg hnot
    subst hmsg
    by_cases ha : addr = local_ip
    · simp [listen_step, ha]
    · rcases not_and_or.mp hnot with h | h <;> simp [listen_step, ha, h]
  · intro msg hmsg ha ht hap
    subst hmsg
    simp [listen_step, ha, ht, hap]

/-- Witness for C8 (amended) at a concrete input: a valid datagram with an
`ip` field is upserted under that field. -/
theorem listen_step_spec_witness :
    listen_step defaultConfig "10.0.0.1" 7 "10.0.0.2"
      (some { type? := some "discovery", device_name? := some "Bob", ip? := some "10.0.0.9",
              port? := some 8888, app? := some "Fshare" }) empty_table =
      add_device "10.0.0.9" "Bob" 8888 7 empty_table :=
  (listen_step_spec defaultConfig "10.0.0.1" 7 "10.0.0.2"
    (some { type? := some "discovery", device_name? := some "Bob", ip? := some "10.0.0.9",
            port? := some 8888, app? := some "Fshare" }) empty_table).2.2.2
    { type? := some "discovery", device_name? := some "Bob", ip? := some "10.0.0.9",
      port? := some 8888, app? := some "Fshare" } rfl (by decide) rfl rfl

/-! ## Helper lemmas: decimal rendering, string cancellation, file names -/

theorem dropWhile_head?_not (p : Char → Bool) :
    ∀ (l : List Char) (c : Char), (l.dropWhile p).head? = some c → p c = false := by
  intro l
  induction l with
  | nil => intro c h; simp [List.dropWhile_nil] at h
  | cons x xs ih =>
    intro c h
    rw [List.dropWhile_cons] at h
    by_cases hx : p x = true
    · rw [if_pos hx] at h
      exact ih c h
    · rw [if_neg hx] at h
      simp only [List.head?_cons, Option.some.injEq] at h
      subst h
      simpa using hx

theorem head?_append_of_ne_nil (u w : List Char) (hu : u ≠ []) :
    (u ++ w).head? = u.head? := by
  cases u with
  | nil => exact absurd rfl hu
  | cons a as => rfl

theorem decDigitsGo_lt10 : ∀ (fuel n : Nat), ∀ d ∈ decDigitsGo fuel n, d < 10 := by
  intro fuel
  induction fuel with
  | zero => intro n d hd; cases n <;> simp [decDigitsGo] at hd
  | succ f ih =>
    intro n d hd
    cases n with
    | zero => simp [decDigitsGo] at hd
    | succ m =>
      rw [decDigitsGo] at hd
      rcases List.mem_cons.mp hd with h | h
      · subst h
        omega
      · exact ih _ d h

theorem fromDecDigits_decDigitsGo : ∀ (fuel n : Nat), n ≤ fuel →
    fromDecDigits (decDigitsGo fuel n) = n := by
  intro fuel
  induction fuel with
  | zero =>
    intro n h
    interval_cases n
    simp [decDigitsGo, fromDecDigits]
  | succ f ih =>
    intro n h
    cases n with
    | zero => simp [decDigitsGo, fromDecDigits]
    | succ m =>
      rw [decDigitsGo, fromDecDigits, ih ((m + 1) / 10) (by omega)]
      omega

theorem charToDigit_digitChar : ∀ d : Nat, d < 10 → charToDigit (digitChar d) = d := by
  intro d hd
  interval_cases d <;> decide

theorem map_digitChar_inj : ∀ (l1 l2 : List Nat), (∀ d ∈ l1, d < 10) → (∀ d ∈ l2, d < 10) →
    l1.map digitChar = l2.map digitChar → l1 = l2 := by
  intro l1
  induction l1 with
  | nil =>
    intro l2 _ _ h
    cases l2 with
    | nil => rfl
    | cons b bs => simp at h
  | cons a as ih =>
    intro l2 h1 h2 h
    cases l2 with
    | nil => simp at h
    | cons b bs =>
      simp only [List.map_cons, List.cons.injEq] at h
      have ha : a = b := by
        have hc := congrArg charToDigit h.1
        rwa [charToDigit_digitChar a (h1 a (by simp)),
          charToDigit_digitChar b (h2 b (by simp))] at hc
      rw [ha, ih bs (fun d hd => h1 d (by simp [hd])) (fun d hd => h2 d (by simp [hd])) h.2]

theorem natToDecimal_injective : Function.Injective natToDecimal := by
  have key : ∀ n : Nat, n ≠ 0 →
      ∀ l : List Nat, (∀ d ∈ l, d < 10) →
      String.mk ((decDigitsGo n n).reverse.map digitChar) = String.mk (l.reverse.map digitChar) →
      n = fromDecDigits l := by
    intro n hn l hl h
    have hd : (decDigitsGo n n).reverse.map digitChar = l.reverse.map digitChar :=
      congrArg String.data h
    have hrev : (decDigitsGo n n).reverse = l.reverse :=
      map_digitChar_inj _ _ (fun d hd' => decDigitsGo_lt10 n n d (List.mem_reverse.mp hd'))
        (fun d hd' => hl d (List.mem_reverse.mp hd')) hd
    have hgo : decDigitsGo n n = l := List.reverse_injective hrev
    rw [← hgo, fromDecDigits_decDigitsGo n n (Nat.le_refl n)]
  intro a b h
  rw [natToDecimal, natToDecimal] at h
  by_cases ha : a = 0 <;> by_cases hb : b = 0
  · omega
  · rw [if_pos ha, if_neg hb] at h
    have h0 : "0" = String.mk (([0] : List Nat).reverse.map digitChar) := rfl
    rw [h0] at h
    have := key b hb [0] (by simp) h.symm
    simp [fromDecDigits] at this
    omega
  · rw [if_neg ha, if_pos hb] at h
    have h0 : "0" = String.mk (([0] : List Nat).reverse.map digitChar) := rfl
    rw [h0] at h
    have := key a ha [0] (by simp) h
    simp [fromDecDigits] at this
    omega
  · rw [if_neg ha, if_neg hb] at h
    have := key a ha (decDigitsGo b b) (decDigitsGo_lt10 b b) h
    rw [fromDecDigits_decDigitsGo b b (Nat.le_refl b)] at this
    exact this

theorem str_append_left_cancel {a b c : String} (h : a ++ b = a ++ c) : b = c := by
  apply String.ext
  have hd : a.data ++ b.data = a.data ++ c.data := by
    have hc := congrArg String.data h
    simpa [String.data_append] using hc
  exact List.append_cancel_left hd

theorem str_append_right_cancel {a b c : String} (h : a ++ c = b ++ c) : a = b := by
  apply String.ext
  have hd : a.data ++ c.data = b.data ++ c.data := by
    have hc := congrArg String.data h
    simpa [String.data_append] using hc
  exact List.append_cancel_right hd

theorem joinPath_inj_of_head_eq (dir : String) (f g : String)
    (hfg : f.data.head? = g.data.head?) (h : joinPath dir f = joinPath dir g) : f = g := by
  rw [joinPath, joinPath] at h
  by_cases h1 : f.data.head? = some '/'
  · have h1g : g.data.head? = some '/' := by rw [← hfg]; exact h1
    rw [if_pos h1, if_pos h1g] at h
    exact h
  · have h1g : ¬g.data.head? = some '/' := by rw [← hfg]; exact h1
    rw [if_neg h1, if_neg h1g] at h
    by_cases h2 : dir = "" ∨ dir.data.getLast? = some '/'
    · rw [if_pos h2, if_pos h2] at h
      exact str_append_left_cancel h
    · rw [if_neg h2, if_neg h2] at h
      exact str_append_left_cancel h

theorem candidate_head_stable (name ext : String) (c : Nat) :
    (name ++ "_" ++ natToDecimal c ++ ext).data.head? = (name ++ "_").data.head? := by
  have e1 : (name ++ "_" ++ natToDecimal c ++ ext).data =
      ((name ++ "_").data ++ (natToDecimal c).data) ++ ext.data := by
    simp [String.data_append]
  rw [e1, head?_append_of_ne_nil _ _ (by simp [String.data_append]),
    head?_append_of_ne_nil _ _ (by simp [String.data_append])]

theorem uniqueCandidate_injective (fp : String) : Function.Injective (uniqueCandidate fp) := by
  intro c1 c2 h
  apply natToDecimal_injective
  rw [uniqueCandidate, uniqueCandidate] at h
  have hf := joinPath_inj_of_head_eq (splitPath fp).1 _ _
    (by rw [candidate_head_stable, candidate_head_stable]) h
  have h2 := str_append_right_cancel hf
  exact str_append_left_cancel h2

theorem exists_fresh_candidate (existing : List String) (f : Nat → String)
    (hf : Function.Injective f) :
    ∃ k, k < existing.length + 1 ∧ f (1 + k) ∉ existing := by
  by_contra hcon
  push_neg at hcon
  have hinj : Function.Injective (fun k : Nat => f (1 + k)) := by
    intro x y hxy
    have := hf hxy
    omega
  have hnodup : ((List.range (existing.length + 1)).map (fun k => f (1 + k))).Nodup :=
    (List.nodup_range _).map hinj
  have hsub : ((List.range (existing.length + 1)).map (fun k => f (1 + k))).toFinset ⊆
      existing.toFinset := by
    intro x hx
    rw [List.mem_toFinset] at hx ⊢
    obtain ⟨k, hk, rfl⟩ := List.mem_map.mp hx
    exact hcon k (List.mem_range.mp hk)
  have h1 := Finset.card_le_card hsub
  rw [List.toFinset_card_of_nodup hnodup] at h1
  have h2 := List.toFinset_card_le existing
  simp only [List.length_map, List.length_range] at h1
  omega

theorem uniqueCandidateLoop_succeeds (existing : List String) (mk : Nat → String) :
    ∀ (fuel c : Nat), (∃ k, k < fuel ∧ mk (c + k) ∉ existing) →
      ∃ r, uniqueCandidateLoop existing mk fuel c = some r ∧ r ∉ existing ∧
        ∃ j, r = mk (c + j) := by
  intro fuel
  induction fuel with
  | zero =>
    rintro c ⟨k, hk, _⟩
    omega
  | succ n ih =>
    rintro c ⟨k, hk, hfree⟩
    rw [uniqueCandidateLoop]
    by_cases hmem : mk c ∈ existing
    · rw [if_pos hmem]
      have hk0 : k ≠ 0 := fun h0 => hfree (by simpa [h0] using hmem)
      obtain ⟨r, hr, hrn, j, hj⟩ := ih (c + 1)
        ⟨k - 1, by omega, by
          have he : c + 1 + (k - 1) = c + k := by omega
          rw [he]
          exact hfree⟩
      exact ⟨r, hr, hrn, 1 + j, by rw [hj]; congr 1; omega⟩
    · rw [if_neg hmem]
      exact ⟨mk c, rfl, hmem, 0, by simp⟩

/-! ## Claim theorem: file-name sanitizing and unique paths (C9) -/

/-- C9: `safe_filename` always returns a non-empty name containing none of
the characters `< > : " / \ | ? *`, with no leading or trailing dot or
space, falling back to `"unnamed_file"` when the sanitized result would be
empty; and `ensure_unique_filename` returns a path that does not already
exist, unchanged when it was free and otherwise with a numeric `_c` suffix
appended to the stem. -/
theorem safe_and_unique_filenames (fn : String) (existing : List String) (fp : String) :
    (safe_filename fn ≠ "" ∧
      (∀ c ∈ (safe_filename fn).data, c ∉ invalidFilenameChars) ∧
      (∀ c, (safe_filename fn).data.head? = some c → isStripChar c = false) ∧
      (∀ c, (safe_filename fn).data.getLast? = some c → isStripChar c = false) ∧
      ((((fn.data.map (fun c => if c ∈ invalidFilenameChars then '_' else c)).dropWhile
          isStripChar).reverse.dropWhile isStripChar).reverse = [] →
        safe_filename fn = "unnamed_file")) ∧
    (ensure_unique_filename existing fp ∉ existing ∧
      (fp ∉ existing → ensure_unique_filename existing fp = fp) ∧
      (fp ∈ existing → ∃ c, 1 ≤ c ∧
        ensure_unique_filename existing fp = uniqueCandidate fp c)) := by
  constructor
  · by_cases hempty : (((fn.data.map (fun c => if c ∈ invalidFilenameChars then '_' else c)).dropWhile
        isStripChar).reverse.dropWhile isStripChar).reverse = []
    · have hval : safe_filename fn = "unnamed_file" := by
        simp [safe_filename, hempty]
      refine ⟨by rw [hval]; decide, ?_, ?_, ?_, fun _ => hval⟩
      · rw [hval]
        decide
      · intro c hc
        rw [hval] at hc
        have hu : ("unnamed_file" : String).data.head? = some 'u' := rfl
        rw [hu] at hc
        injection hc with hc'
        subst hc'
        decide
      · intro c hc
        rw [hval] at hc
        have hu : ("unnamed_file" : String).data.getLast? = some 'e' := rfl
        rw [hu] at hc
        injection hc with hc'
        subst hc'
        decide
    · have hval : safe_filename fn =
          String.mk ((((fn.data.map (fun c => if c ∈ invalidFilenameChars then '_' else c)).dropWhile
            isStripChar).reverse.dropWhile isStripChar).reverse) := by
        simp [safe_filename, List.isEmpty_iff, hempty]
      refine ⟨?_, ?_, ?_, ?_, fun he => absurd he hempty⟩
      · rw [hval]
        intro hcon
        exact hempty (congrArg String.data hcon)
      · intro c hc
        rw [hval] at hc
        have hc1 : c ∈ (((fn.data.map (fun c => if c ∈ invalidFilenameChars then '_' else c)).dropWhile
            isStripChar).reverse.dropWhile isStripChar).reverse := hc
        have hc2 : c ∈ fn.data.map (fun c => if c ∈ invalidFilenameChars then '_' else c) :=
          (List.dropWhile_sublist _).subset
            (List.mem_reverse.mp ((List.dropWhile_sublist _).subset (List.mem_reverse.mp hc1)))
        obtain ⟨x, _, rfl⟩ := List.mem_map.mp hc2
        by_cases hx : x ∈ invalidFilenameChars
        · rw [if_pos hx]
          decide
        · rw [if_neg hx]
          exact hx
      · intro c hc
        rw [hval] at hc
        have hc1 : ((((fn.data.map (fun c => if c ∈ invalidFilenameChars then '_' else c)).dropWhile
            isStripChar).reverse.dropWhile isStripChar).reverse).head? = some c := hc
        rw [List.head?_reverse] at hc1
        obtain ⟨t, ht⟩ := List.dropWhile_suffix (l := ((fn.data.map
          (fun c => if c ∈ invalidFilenameChars then '_' else c)).dropWhile isStripChar).reverse)
          (p := isStripChar)
        have hrev : (((fn.data.map (fun c => if c ∈ invalidFilenameChars then '_' else c)).dropWhile
            isStripChar).reverse).getLast? = some c := by
          rw [← ht, List.getLast?_append, hc1]
          rfl
        rw [List.getLast?_reverse] at hrev
        exact dropWhile_head?_not isStripChar _ c hrev
      · intro c hc
        rw [hval] at hc
        have hc1 : ((((fn.data.map (fun c => if c ∈ invalidFilenameChars then '_' else c)).dropWhile
            isStripChar).reverse.dropWhile isStripChar).reverse).getLast? = some c := hc
        rw [List.getLast?_reverse] at hc1
        exact dropWhile_head?_not isStripChar _ c hc1
  · by_cases hmem : fp ∈ existing
    · obtain ⟨k, hk, hfree⟩ := exists_fresh_candidate existing (uniqueCandidate fp)
        (uniqueCandidate_injective fp)
      obtain ⟨r, hr, hrn, j, hj⟩ := uniqueCandidateLoop_succeeds existing (uniqueCandidate fp)
        (existing.length + 1) 1 ⟨k, hk, hfree⟩
      have hres : ensure_unique_filename existing fp = r := by
        rw [ensure_unique_filename, if_pos hmem, hr]
        rfl
      refine ⟨by rw [hres]; exact hrn, fun hno => absurd hmem hno, fun _ => ?_⟩
      exact ⟨1 + j, by omega, by rw [hres, hj]⟩
    · have hres : ensure_unique_filename existing fp = fp := by
        rw [ensure_unique_filename, if_neg hmem]
      exact ⟨by rw [hres]; exact hmem, fun _ => hres, fun hin => absurd hin hmem⟩

/-- Witness for C9 at concrete inputs: sanitizing `" ..a<b.. "` and
resolving a collision for `"d/a.txt"`. -/
theorem safe_and_unique_filenames_witness :
    safe_filename " ..a<b.. " ≠ "" ∧
    ensure_unique_filename ["d/a.txt"] "d/a.txt" ∉ (["d/a.txt"] : List String) ∧
    ∃ c, 1 ≤ c ∧ ensure_unique_filename ["d/a.txt"] "d/a.txt" = uniqueCandidate "d/a.txt" c :=
  ⟨(safe_and_unique_filenames " ..a<b.. " ["d/a.txt"] "d/a.txt").1.1,
    (safe_and_unique_filenames " ..a<b.. " ["d/a.txt"] "d/a.txt").2.1,
    (safe_and_unique_filenames " ..a<b.. " ["d/a.txt"] "d/a.txt").2.2.2 (by decide)⟩

end FShare
